import Mathlib

/-!
Verification development for the dependency-aware task resolver
(`src/resolver.ts` and `src/resolver.interface.ts`).

The embedding is a shallow translation of the source:

* `TaskResult` mirrors `type TaskResult<T> = { data: T } | { error: unknown }`.
* A task function (`Task.fn`) may throw synchronously or return an
  immediate value, a promise (that later resolves or rejects), or an
  observable, modelled as the list of events it would deliver.
* `executeTask` translates `Resolver#executeTask` (resolver.ts 375-399):
  the try/catch, the promise/observable/value classification, and the
  `map(data => ({data})) / catchError(e => of({error}))` pipe followed by
  the outer `take(1)`; an observable that completes without emitting
  yields no task result (`none`), exactly as the real pipeline never
  resolves that task's deferred promise.
* `register` translates `Resolver#register` (resolver.ts 165-188).
* The resolution of `Resolver#resolve` (resolver.ts 251-316) fans out one
  unit per task; a unit with producers waits (`forkJoin` on the producers'
  deferred promises) until every producer has published, builds the
  argument record, and runs `executeTask`.  `waveGo`/`runWave`/`runWaves`
  is the deterministic scheduling abstraction of that fan-out: each wave
  invokes every not-yet-invoked task whose producers have all published a
  result in the pre-wave snapshot, which preserves the causal contract
  (a task runs strictly after its producers publish) while abstracting
  real-time interleaving.  After `reg.length` waves the state is a
  fixpoint, so `finalState` is the quiescent state of the resolution.
* `resolveEmissions` translates the emission behaviour of `resolve`:
  the empty-registry short-circuit (lines 257-259), the terminal
  `{ globalArgs, tasks }` record built by the outer `forkJoin`
  (lines 297-312, emitted only if every task published), and the
  loading-marker wrapping (line 314).
* `ColdStream`/`resolve` model the outer `defer` (line 251): the value
  returned by `resolve` performs no work; each subscription applies the
  factory to the resolver state as it is at subscription time.
-/

namespace TaskRes

/-- Mirrors `TaskResult<T> = { data: T } | { error: unknown }`; the data and
error payloads are drawn from a single universe `V` (both are `unknown`-ish
in the source). -/
inductive TaskResult (V : Type) where
  | data (v : V)
  | error (e : V)
deriving DecidableEq, Repr

/-- One event of an rxjs observable as seen by a subscriber: a `next` value
or an error notification (completion is the end of the list). -/
inductive ObsEvent (V : Type) where
  | next (v : V)
  | errorEv (e : V)
deriving DecidableEq, Repr

/-- The value returned by a task function: an immediate value, a promise
that later resolves or rejects, or an observable (its event list). -/
inductive TaskReturn (V : Type) where
  | value (v : V)
  | promiseResolve (v : V)
  | promiseReject (e : V)
  | obs (events : List (ObsEvent V))
deriving DecidableEq, Repr

/-- Invoking a task function either throws synchronously or returns a
`TaskReturn`. -/
inductive TaskFnOutcome (V : Type) where
  | throws (e : V)
  | returns (r : TaskReturn V)
deriving DecidableEq, Repr

/-- The argument bundle passed to a task function: a record mapping each
producer id to that producer's task result (a `Record<string, TaskResult>`
in the source), modelled as an association list. -/
abbrev Args (V : Type) : Type := List (String × TaskResult V)

/-- Mirrors `TaskInfo`: the task descriptor (`id`, `fn`) augmented with the
`producers` and `consumers` adjacency built at registration. -/
structure TaskInfo (V G : Type) where
  id : String
  fn : Args V → Option G → TaskFnOutcome V
  producers : List String
  consumers : List String

/-- The task registry: the `Map<string, TaskInfo>` of the resolver, whose
iteration order is insertion order, modelled as a list in insertion order. -/
abbrev Registry (V G : Type) : Type := List (TaskInfo V G)

/-- Mirrors `this.tasks.has(id)`. -/
def tasksHas (r : Registry V G) (id : String) : Bool :=
  r.any (fun t => t.id == id)

/-- The two registration failure conditions of `register`
(resolver.ts 170-176). -/
inductive RegisterError where
  | duplicateTaskId
  | unknownDependency
deriving DecidableEq, Repr

/-- Appends `consumer` to the `consumers` list of the node named `dep`
(the `dependencyTask.consumers.push(task.id)` mutation, resolver.ts 180-185). -/
def addConsumer (r : Registry V G) (dep : String) (consumer : String) : Registry V G :=
  r.map (fun n => if n.id == dep then ⟨n.id, n.fn, n.producers, n.consumers ++ [consumer]⟩ else n)

/-- Translation of `Resolver#register` (resolver.ts 165-188): reject a
duplicate id, reject a dependency that is not yet registered, otherwise
insert the node with `producers = dependencies ?? []`, `consumers = []`,
and append the new id to each producer's `consumers`. -/
def register (r : Registry V G) (id : String) (fn : Args V → Option G → TaskFnOutcome V)
    (dependencies : Option (List String)) : Except RegisterError (Registry V G) :=
  if tasksHas r id then
    Except.error RegisterError.duplicateTaskId
  else if (dependencies.getD []).any (fun d => !tasksHas r d) then
    Except.error RegisterError.unknownDependency
  else
    let withNode : Registry V G := r ++ [⟨id, fn, dependencies.getD [], []⟩]
    Except.ok ((dependencies.getD []).foldl (fun acc dep => addConsumer acc dep id) withNode)

/-- First emission of the per-task pipeline
`map(data => ({data})) |> catchError(e => of({error})) |> take(1)`
applied to an observable's events: the first `next` yields a success, an
error notification yields a captured error, an empty completion yields
nothing. -/
def obsFirst : List (ObsEvent V) → Option (TaskResult V)
  | [] => none
  | ObsEvent.next v :: _ => some (TaskResult.data v)
  | ObsEvent.errorEv e :: _ => some (TaskResult.error e)

/-- Translation of `Resolver#executeTask` (resolver.ts 375-399) composed
with the outer `take(1)` (line 291): a synchronous throw is caught and
becomes `{ error }`; a promise is converted with `from` (resolution →
`{ data }`, rejection → `{ error }`); an observable contributes its first
event; a plain value becomes `{ data }`.  `none` means the pipeline
completed without publishing a result. -/
def executeTask (t : TaskInfo V G) (args : Args V) (g : Option G) : Option (TaskResult V) :=
  match t.fn args g with
  | TaskFnOutcome.throws e => some (TaskResult.error e)
  | TaskFnOutcome.returns (TaskReturn.value v) => some (TaskResult.data v)
  | TaskFnOutcome.returns (TaskReturn.promiseResolve v) => some (TaskResult.data v)
  | TaskFnOutcome.returns (TaskReturn.promiseReject e) => some (TaskResult.error e)
  | TaskFnOutcome.returns (TaskReturn.obs events) => obsFirst events

/-- State of one in-flight resolution: the invocation log (task id and the
argument bundle its function was invoked with, in invocation order) and the
published task results (the supplied deferred handles, in publish order). -/
structure ExecState (V : Type) where
  executed : List (String × Args V)
  results : List (String × TaskResult V)
deriving DecidableEq

/-- Ids whose function has been invoked. -/
def executedIds (s : ExecState V) : List String := s.executed.map Prod.fst

/-- Ids whose deferred handle has been supplied. -/
def resolvedIds (s : ExecState V) : List String := s.results.map Prod.fst

/-- Mirrors the `forkJoin` readiness of a task unit: every declared producer
has published a result. -/
def ready (res : List (String × TaskResult V)) (t : TaskInfo V G) : Bool :=
  t.producers.all (fun p => (List.lookup p res).isSome)

/-- Mirrors the `args.reduce(...)` record construction (resolver.ts 273-281):
the bundle keyed by producer id holding each producer's published result. -/
def buildArgs (res : List (String × TaskResult V)) (ps : List String) : Args V :=
  ps.filterMap (fun p => (List.lookup p res).map (fun r => (p, r)))

/-- One task unit's turn inside a wave: if the task has not been invoked yet
and all its producers have published in the pre-wave snapshot, invoke its
function on the argument bundle and publish the normalized result (if the
pipeline emits one). -/
def stepTask (g : Option G) (snap : List (String × TaskResult V)) (t : TaskInfo V G)
    (acc : ExecState V) : ExecState V :=
  if (executedIds acc).contains t.id then acc
  else if ready snap t then
    let args := buildArgs snap t.producers
    match executeTask t args g with
    | some tr => ⟨acc.executed ++ [(t.id, args)], acc.results ++ [(t.id, tr)]⟩
    | none => ⟨acc.executed ++ [(t.id, args)], acc.results⟩
  else acc

/-- Runs one wave over the whole registry. -/
def waveGo (g : Option G) (snap : List (String × TaskResult V)) :
    List (TaskInfo V G) → ExecState V → ExecState V
  | [], acc => acc
  | t :: rest, acc => waveGo g snap rest (stepTask g snap t acc)

/-- One wave of the fan-out: every not-yet-invoked task whose producers have
all published in the snapshot taken at wave start is invoked. -/
def runWave (reg : Registry V G) (g : Option G) (s : ExecState V) : ExecState V :=
  waveGo g s.results reg s

/-- Iterates `runWave`. -/
def runWaves (reg : Registry V G) (g : Option G) : Nat → ExecState V → ExecState V
  | 0, s => s
  | n + 1, s => runWaves reg g n (runWave reg g s)

/-- The all-empty starting state of a resolution. -/
def initState : ExecState V := ⟨[], []⟩

/-- The quiescent state of a resolution: after `reg.length` waves no further
progress is possible. -/
def finalState (reg : Registry V G) (g : Option G) : ExecState V :=
  runWaves reg g reg.length initState

/-- Options of `resolve` (resolver.ts 245-250): both keys are optional.
`globalArgs = none` models the key being absent from the options object,
`globalArgs = some v` models the key being present with value `v`
(where `v = none` models an explicit `undefined`). -/
structure ResolveOptions (G : Type) where
  globalArgs : Option (Option G)
  withLoadingState : Option Bool
deriving DecidableEq

/-- Translation of line 253:
`!!options && 'globalArgs' in options ? options.globalArgs : this.globalArgs`. -/
def effectiveGlobalArgs (stored : Option G) (options : Option (ResolveOptions G)) : Option G :=
  match options with
  | none => stored
  | some o =>
    match o.globalArgs with
    | some v => v
    | none => stored

/-- Translation of line 252: `const { withLoadingState = false } = options ?? {}`. -/
def effWithLoadingState (options : Option (ResolveOptions G)) : Bool :=
  match options with
  | none => false
  | some o => o.withLoadingState.getD false

/-- Mirrors the shape of the terminal value of `ResolverResult`
(resolver.interface.ts): `{ globalArgs: TGlobalArgs; tasks: TResult }`.
These are the only fields the emitted record has. -/
structure ResolutionResult (V G : Type) where
  globalArgs : Option G
  tasks : List (String × TaskResult V)
deriving DecidableEq

/-- One value emitted by the stream returned by `resolve`: the loading
marker `{ loading: true }` or the terminal resolution result. -/
inductive Emission (V G : Type) where
  | loading
  | result (r : ResolutionResult V G)
deriving DecidableEq

/-- The task mapping of the terminal record, built in registry order
(the outer `forkJoin` array is in registry order, resolver.ts 297-307). -/
def finalTasks (reg : Registry V G) (s : ExecState V) : List (String × TaskResult V) :=
  reg.filterMap (fun t => (List.lookup t.id s.results).map (fun r => (t.id, r)))

/-- Whether every registered task has published a result (the condition for
the outer `forkJoin` to emit). -/
def allResolved (reg : Registry V G) (s : ExecState V) : Bool :=
  reg.all (fun t => (List.lookup t.id s.results).isSome)

/-- Translation of the emission behaviour of `resolve` (resolver.ts
251-316) for one subscription: the empty-registry short-circuit emits the
bare result immediately (lines 257-259, before any loading wrapping);
otherwise the resolution runs to quiescence, the terminal record is emitted
only if every task published (the outer `forkJoin`), and `withLoadingState`
prepends the single loading marker (line 314). -/
def resolveEmissions (reg : Registry V G) (stored : Option G)
    (options : Option (ResolveOptions G)) : List (Emission V G) :=
  let g := effectiveGlobalArgs stored options
  if reg.isEmpty then
    [Emission.result ⟨g, []⟩]
  else
    let s := finalState reg g
    let terminal : List (Emission V G) :=
      if allResolved reg s then [Emission.result ⟨g, finalTasks reg s⟩] else []
    if effWithLoadingState options then Emission.loading :: terminal else terminal

/-- Mutable state of a `Resolver` instance: the registry and the stored
global arguments (`this.tasks`, `this.globalArgs`). -/
structure ResolverState (V G : Type) where
  tasks : Registry V G
  globalArgs : Option G

/-- Translation of `Resolver#setGlobalArgs` (resolver.ts 363-365). -/
def setGlobalArgs (st : ResolverState V G) (v : G) : ResolverState V G :=
  ⟨st.tasks, some v⟩

/-- The cold stream returned by `resolve`: `defer` (line 251) wraps a
factory that is applied to the instance state only when a subscription
occurs; each subscription independently produces its emissions and its own
invocation log. -/
structure ColdStream (V G : Type) where
  subscribe : ResolverState V G → List (Emission V G) × List (String × Args V)

/-- Translation of `Resolver#resolve`: returns the deferred stream without
performing any work; every subscription re-runs the whole resolution
against the instance state at subscription time. -/
def resolve (options : Option (ResolveOptions G)) : ColdStream V G :=
  ⟨fun st =>
    (resolveEmissions st.tasks st.globalArgs options,
     (finalState st.tasks (effectiveGlobalArgs st.globalArgs options)).executed)⟩

/-- Translation of the free function `isSuccess` (resolver.ts 415-417). -/
def isSuccess : TaskResult V → Bool
  | TaskResult.data _ => true
  | TaskResult.error _ => false

/-- Translation of the free function `isError` (resolver.ts 432-434). -/
def isError : TaskResult V → Bool
  | TaskResult.data _ => false
  | TaskResult.error _ => true

/-- Translation of the free function `isLoading` (resolver.ts 449-453). -/
def isLoading : Emission V G → Bool
  | Emission.loading => true
  | Emission.result _ => false

/-- Translation of the free function `hasNoErrors` (resolver.ts 489-495):
`Object.values(result).every(isSuccess)`. -/
def hasNoErrors (m : List (String × TaskResult V)) : Bool :=
  m.all (fun q => isSuccess q.2)

/-- Number of times the function of task `id` was invoked in state `s`. -/
def countExec (s : ExecState V) (id : String) : Nat :=
  (executedIds s).count id

/-- Every task's pipeline publishes a result whatever arguments it is
invoked with: its function throws, returns a value, returns a settling
promise, or returns a stream with at least one event.  (A task returning a
stream that completes without emitting never supplies its deferred handle.) -/
def Productive (reg : Registry V G) (g : Option G) : Prop :=
  ∀ t ∈ reg, ∀ args, (executeTask t args g).isSome

/-- The ids of a registry, in insertion order. -/
def idsOf (r : Registry V G) : List String := r.map (fun t => t.id)

/-- The registration invariant: every task's id is new when it is inserted
and every producer it declares is already present among the earlier ids. -/
def wellFormedAux (seen : List String) : Registry V G → Bool
  | [] => true
  | t :: rest =>
      (!seen.contains t.id) && t.producers.all (fun p => seen.contains p) &&
        wellFormedAux (seen ++ [t.id]) rest

/-- A registry in which every producer reference points strictly backwards. -/
def wellFormedB (r : Registry V G) : Bool := wellFormedAux [] r

section Bridges

theorem string_contains_iff {l : List String} {a : String} :
    l.contains a = true ↔ a ∈ l := by
  simp [List.contains]

theorem tasksHas_iff {r : Registry V G} {id : String} :
    tasksHas r id = true ↔ id ∈ idsOf r := by
  simp [tasksHas, idsOf, List.any_eq_true]

theorem lookup_append_of_some {α : Type} {l₁ l₂ : List (String × α)} {p : String} {b : α}
    (h : List.lookup p l₁ = some b) : List.lookup p (l₁ ++ l₂) = some b := by
  induction l₁ with
  | nil => simp [List.lookup] at h
  | cons q rest ih =>
    rcases q with ⟨k, v⟩
    by_cases hk : p = k
    · subst hk
      simp [List.lookup] at h ⊢
      exact h
    · simp [List.lookup, beq_false_of_ne hk] at h ⊢
      exact ih h

theorem lookup_isSome_iff {α : Type} {l : List (String × α)} {p : String} :
    (List.lookup p l).isSome = true ↔ p ∈ l.map Prod.fst := by
  induction l with
  | nil => simp [List.lookup]
  | cons q rest ih =>
    rcases q with ⟨k, v⟩
    by_cases hk : p = k
    · subst hk
      simp [List.lookup]
    · simp [List.lookup, beq_false_of_ne hk, hk, ih]

theorem mem_of_lookup_some {α : Type} {l : List (String × α)} {p : String} {b : α}
    (h : List.lookup p l = some b) : (p, b) ∈ l := by
  induction l with
  | nil => simp [List.lookup] at h
  | cons q rest ih =>
    rcases q with ⟨k, v⟩
    by_cases hk : p = k
    · subst hk
      simp [List.lookup] at h
      simp [h]
    · simp [List.lookup, beq_false_of_ne hk] at h
      exact List.mem_cons_of_mem _ (ih h)

end Bridges

section Shapes

theorem stepTask_shape (g : Option G) (snap : List (String × TaskResult V))
    (t : TaskInfo V G) (acc : ExecState V) :
    ∃ e r, (stepTask g snap t acc).executed = acc.executed ++ e ∧
      (stepTask g snap t acc).results = acc.results ++ r := by
  unfold stepTask
  split
  · exact ⟨[], [], by simp, by simp⟩
  · split
    · cases hexe : executeTask t (buildArgs snap t.producers) g with
      | some tr =>
        exact ⟨[(t.id, buildArgs snap t.producers)], [(t.id, tr)], by simp [hexe], by simp [hexe]⟩
      | none =>
        exact ⟨[(t.id, buildArgs snap t.producers)], [], by simp [hexe], by simp [hexe]⟩
    · exact ⟨[], [], by simp, by simp⟩

theorem waveGo_shape (g : Option G) (snap : List (String × TaskResult V))
    (l : List (TaskInfo V G)) (acc : ExecState V) :
    ∃ e r, (waveGo g snap l acc).executed = acc.executed ++ e ∧
      (waveGo g snap l acc).results = acc.results ++ r := by
  induction l generalizing acc with
  | nil => exact ⟨[], [], by simp [waveGo], by simp [waveGo]⟩
  | cons t rest ih =>
    obtain ⟨e₁, r₁, he₁, hr₁⟩ := stepTask_shape g snap t acc
    obtain ⟨e₂, r₂, he₂, hr₂⟩ := ih (stepTask g snap t acc)
    exact ⟨e₁ ++ e₂, r₁ ++ r₂, by simp [waveGo, he₂, he₁],
      by simp [waveGo, hr₂, hr₁]⟩

theorem runWave_shape (reg : Registry V G) (g : Option G) (s : ExecState V) :
    ∃ e r, (runWave reg g s).executed = s.executed ++ e ∧
      (runWave reg g s).results = s.results ++ r :=
  waveGo_shape g s.results reg s

theorem stepTask_executed_mono {g : Option G} {snap : List (String × TaskResult V)}
    {t : TaskInfo V G} {acc : ExecState V} {x : String × Args V}
    (h : x ∈ acc.executed) : x ∈ (stepTask g snap t acc).executed := by
  obtain ⟨e, r, he, _⟩ := stepTask_shape g snap t acc
  rw [he]
  exact List.mem_append_left _ h

theorem waveGo_executed_mono {g : Option G} {snap : List (String × TaskResult V)}
    {l : List (TaskInfo V G)} {acc : ExecState V} {x : String × Args V}
    (h : x ∈ acc.executed) : x ∈ (waveGo g snap l acc).executed := by
  obtain ⟨e, r, he, _⟩ := waveGo_shape g snap l acc
  rw [he]
  exact List.mem_append_left _ h

theorem runWaves_succ_comm (reg : Registry V G) (g : Option G) (n : Nat) (s : ExecState V) :
    runWaves reg g (n + 1) s = runWave reg g (runWaves reg g n s) := by
  induction n generalizing s with
  | zero => rfl
  | succ m ih =>
    show runWaves reg g (m + 1) (runWave reg g s) = _
    rw [ih (runWave reg g s)]
    rfl

theorem runWaves_executed_mono {reg : Registry V G} {g : Option G} {n : Nat}
    {s : ExecState V} {x : String × Args V}
    (h : x ∈ s.executed) : x ∈ (runWaves reg g n s).executed := by
  induction n generalizing s with
  | zero => exact h
  | succ m ih =>
    obtain ⟨e, r, he, _⟩ := runWave_shape reg g s
    exact ih (by rw [he]; exact List.mem_append_left _ h)

end Shapes

section BuildArgs

theorem buildArgs_keys {res : List (String × TaskResult V)} {ps : List String}
    (h : ∀ p ∈ ps, (List.lookup p res).isSome = true) :
    (buildArgs res ps).map Prod.fst = ps := by
  induction ps with
  | nil => rfl
  | cons q rest ih =>
    obtain ⟨r, hr⟩ := Option.isSome_iff_exists.mp (h q (List.mem_cons_self q rest))
    simp [buildArgs, hr]
    exact ih (fun p hp => h p (List.mem_cons_of_mem _ hp))

theorem buildArgs_lookup {res : List (String × TaskResult V)} {ps : List String} {p : String}
    (hmem : p ∈ ps) (h : ∀ q ∈ ps, (List.lookup q res).isSome = true) :
    List.lookup p (buildArgs res ps) = List.lookup p res := by
  induction ps with
  | nil => cases hmem
  | cons q rest ih =>
    obtain ⟨r, hr⟩ := Option.isSome_iff_exists.mp (h q (List.mem_cons_self q rest))
    by_cases hpq : p = q
    · subst hpq
      simp [buildArgs, hr, List.lookup]
    · rcases List.mem_cons.mp hmem with hh | hh
      · exact absurd hh hpq
      · simp [buildArgs, hr, List.lookup, beq_false_of_ne hpq]
        exact ih hh (fun x hx => h x (List.mem_cons_of_mem _ hx))

end BuildArgs

/-- Invariant of an in-flight resolution state: each task is invoked at
most once (`ndE`), a result is only ever published for an invoked task
(`subRE`, `ndR`), every invocation happened with all of its producers
already published and with the argument bundle keyed exactly by the
producer list and holding exactly the published producer results
(`argsOK`), and every published result is the normalized outcome of the
one invocation of that task (`resOK`). -/
structure Inv (reg : Registry V G) (g : Option G) (s : ExecState V) : Prop where
  ndE : (executedIds s).Nodup
  subRE : ∀ p, p ∈ resolvedIds s → p ∈ executedIds s
  ndR : (resolvedIds s).Nodup
  argsOK : ∀ pr ∈ s.executed, ∃ t ∈ reg, t.id = pr.1 ∧ pr.2.map Prod.fst = t.producers ∧
      ∀ p ∈ t.producers, ∃ res, List.lookup p s.results = some res ∧
        List.lookup p pr.2 = some res
  resOK : ∀ qr ∈ s.results, ∃ t ∈ reg, ∃ args, t.id = qr.1 ∧ (qr.1, args) ∈ s.executed ∧
      executeTask t args g = some qr.2

theorem stepTask_inv {reg : Registry V G} {g : Option G}
    {snap : List (String × TaskResult V)} {t : TaskInfo V G} {acc : ExecState V}
    (ht : t ∈ reg) (hext : ∃ ext, acc.results = snap ++ ext) (hinv : Inv reg g acc) :
    Inv reg g (stepTask g snap t acc) ∧
      ∃ ext, (stepTask g snap t acc).results = snap ++ ext := by
  unfold stepTask
  split
  · exact ⟨hinv, hext⟩
  · rename_i hnotex
    split
    · rename_i hready
      have hnotmem : t.id ∉ executedIds acc := by
        intro hmem
        exact hnotex (string_contains_iff.mpr hmem)
      have hnotres : t.id ∉ resolvedIds acc := fun hmem => hnotmem (hinv.subRE _ hmem)
      have hreadyAll : ∀ p ∈ t.producers, (List.lookup p snap).isSome = true := by
        intro p hp
        exact List.all_eq_true.mp hready p hp
      obtain ⟨ext, hextEq⟩ := hext
      have hargsNew : ∀ p ∈ t.producers, ∃ res,
          List.lookup p acc.results = some res ∧
            List.lookup p (buildArgs snap t.producers) = some res := by
        intro p hp
        obtain ⟨res, hres⟩ := Option.isSome_iff_exists.mp (hreadyAll p hp)
        refine ⟨res, ?_, ?_⟩
        · rw [hextEq]
          exact lookup_append_of_some hres
        · rw [buildArgs_lookup hp hreadyAll]
          exact hres
      cases hexe : executeTask t (buildArgs snap t.producers) g with
      | some tr =>
        simp only [hexe]
        constructor
        · constructor
          · show (List.map Prod.fst (acc.executed ++ [(t.id, buildArgs snap t.producers)])).Nodup
            simp only [List.map_append, List.map_cons, List.map_nil]
            rw [List.nodup_append]
            exact ⟨hinv.ndE, List.nodup_singleton _,
              fun a ha hb => by simp at hb; subst hb; exact hnotmem ha⟩
          · intro p hp
            show p ∈ List.map Prod.fst (acc.executed ++ [(t.id, buildArgs snap t.producers)])
            have hp' : p ∈ List.map Prod.fst (acc.results ++ [(t.id, tr)]) := hp
            simp only [List.map_append, List.map_cons, List.map_nil, List.mem_append] at hp' ⊢
            rcases hp' with h | h
            · exact Or.inl (hinv.subRE _ h)
            · exact Or.inr h
          · show (List.map Prod.fst (acc.results ++ [(t.id, tr)])).Nodup
            simp only [List.map_append, List.map_cons, List.map_nil]
            rw [List.nodup_append]
            exact ⟨hinv.ndR, List.nodup_singleton _,
              fun a ha hb => by simp at hb; subst hb; exact hnotres ha⟩
          · intro pr hpr
            rcases List.mem_append.mp hpr with hold | hnew
            · obtain ⟨t', ht', hid, hkeys, hlook⟩ := hinv.argsOK pr hold
              refine ⟨t', ht', hid, hkeys, ?_⟩
              intro p hp
              obtain ⟨res, hres1, hres2⟩ := hlook p hp
              exact ⟨res, lookup_append_of_some hres1, hres2⟩
            · simp at hnew
              subst hnew
              refine ⟨t, ht, rfl, buildArgs_keys hreadyAll, ?_⟩
              intro p hp
              obtain ⟨res, hres1, hres2⟩ := hargsNew p hp
              exact ⟨res, lookup_append_of_some hres1, hres2⟩
          · intro qr hqr
            rcases List.mem_append.mp hqr with hold | hnew
            · obtain ⟨t', ht', args, hid, hmem, hrun⟩ := hinv.resOK qr hold
              exact ⟨t', ht', args, hid, List.mem_append_left _ hmem, hrun⟩
            · simp at hnew
              subst hnew
              exact ⟨t, ht, buildArgs snap t.producers, rfl,
                List.mem_append_right _ (List.mem_singleton.mpr rfl), hexe⟩
        · exact ⟨ext ++ [(t.id, tr)], by simp [hextEq]⟩
      | none =>
        simp only [hexe]
        constructor
        · constructor
          · show (List.map Prod.fst (acc.executed ++ [(t.id, buildArgs snap t.producers)])).Nodup
            simp only [List.map_append, List.map_cons, List.map_nil]
            rw [List.nodup_append]
            exact ⟨hinv.ndE, List.nodup_singleton _,
              fun a ha hb => by simp at hb; subst hb; exact hnotmem ha⟩
          · intro p hp
            show p ∈ List.map Prod.fst (acc.executed ++ [(t.id, buildArgs snap t.producers)])
            simp only [List.map_append, List.map_cons, List.map_nil, List.mem_append]
            exact Or.inl (hinv.subRE _ hp)
          · exact hinv.ndR
          · intro pr hpr
            rcases List.mem_append.mp hpr with hold | hnew
            · exact hinv.argsOK pr hold
            · simp at hnew
              subst hnew
              exact ⟨t, ht, rfl, buildArgs_keys hreadyAll, hargsNew⟩
          · intro qr hqr
            obtain ⟨t', ht', args, hid, hmem, hrun⟩ := hinv.resOK qr hqr
            exact ⟨t', ht', args, hid, List.mem_append_left _ hmem, hrun⟩
        · exact ⟨ext, hextEq⟩
    · exact ⟨hinv, hext⟩

theorem waveGo_inv {reg : Registry V G} {g : Option G}
    {snap : List (String × TaskResult V)} {l : List (TaskInfo V G)} {acc : ExecState V}
    (hl : ∀ t ∈ l, t ∈ reg) (hext : ∃ ext, acc.results = snap ++ ext)
    (hinv : Inv reg g acc) : Inv reg g (waveGo g snap l acc) := by
  induction l generalizing acc with
  | nil => exact hinv
  | cons t rest ih =>
    obtain ⟨hinv', hext'⟩ :=
      stepTask_inv (hl t (List.mem_cons_self t rest)) hext hinv
    exact ih (fun u hu => hl u (List.mem_cons_of_mem _ hu)) hext' hinv'

theorem runWave_inv {reg : Registry V G} {g : Option G} {s : ExecState V}
    (hinv : Inv reg g s) : Inv reg g (runWave reg g s) :=
  waveGo_inv (fun _ h => h) ⟨[], by simp⟩ hinv

theorem inv_init {reg : Registry V G} {g : Option G} : Inv reg g (initState (V := V)) := by
  constructor <;> simp [initState, executedIds, resolvedIds]

theorem runWaves_inv {reg : Registry V G} {g : Option G} {n : Nat} {s : ExecState V}
    (hinv : Inv reg g s) : Inv reg g (runWaves reg g n s) := by
  induction n generalizing s with
  | zero => exact hinv
  | succ m ih => exact ih (runWave_inv hinv)

theorem finalState_inv {reg : Registry V G} {g : Option G} :
    Inv reg g (finalState reg g) :=
  runWaves_inv inv_init

section Liveness

theorem stepTask_sync {reg : Registry V G} {g : Option G}
    {snap : List (String × TaskResult V)} {t : TaskInfo V G} {acc : ExecState V}
    (ht : t ∈ reg) (hp : Productive reg g)
    (h : resolvedIds acc = executedIds acc) :
    resolvedIds (stepTask g snap t acc) = executedIds (stepTask g snap t acc) := by
  unfold stepTask
  split
  · exact h
  · split
    · cases hexe : executeTask t (buildArgs snap t.producers) g with
      | some tr =>
        simp only [hexe, resolvedIds, executedIds, List.map_append, List.map_cons,
          List.map_nil]
        rw [show acc.results.map Prod.fst = resolvedIds acc from rfl,
          show acc.executed.map Prod.fst = executedIds acc from rfl, h]
      | none =>
        have hs := hp t ht (buildArgs snap t.producers)
        rw [hexe] at hs
        cases hs
    · exact h

theorem waveGo_sync {reg : Registry V G} {g : Option G}
    {snap : List (String × TaskResult V)} {l : List (TaskInfo V G)} {acc : ExecState V}
    (hl : ∀ t ∈ l, t ∈ reg) (hp : Productive reg g)
    (h : resolvedIds acc = executedIds acc) :
    resolvedIds (waveGo g snap l acc) = executedIds (waveGo g snap l acc) := by
  induction l generalizing acc with
  | nil => exact h
  | cons t rest ih =>
    exact ih (fun u hu => hl u (List.mem_cons_of_mem _ hu))
      (stepTask_sync (hl t (List.mem_cons_self t rest)) hp h)

theorem runWaves_sync {reg : Registry V G} {g : Option G} {n : Nat} {s : ExecState V}
    (hp : Productive reg g) (h : resolvedIds s = executedIds s) :
    resolvedIds (runWaves reg g n s) = executedIds (runWaves reg g n s) := by
  induction n generalizing s with
  | zero => exact h
  | succ m ih => exact ih (waveGo_sync (fun _ hu => hu) hp h)

theorem stepTask_executedIds_mono {g : Option G} {snap : List (String × TaskResult V)}
    {t : TaskInfo V G} {acc : ExecState V} {x : String}
    (h : x ∈ executedIds acc) : x ∈ executedIds (stepTask g snap t acc) := by
  obtain ⟨e, r, he, _⟩ := stepTask_shape g snap t acc
  show x ∈ (stepTask g snap t acc).executed.map Prod.fst
  rw [he, List.map_append]
  exact List.mem_append_left _ h

theorem waveGo_executedIds_mono {g : Option G} {snap : List (String × TaskResult V)}
    {l : List (TaskInfo V G)} {acc : ExecState V} {x : String}
    (h : x ∈ executedIds acc) : x ∈ executedIds (waveGo g snap l acc) := by
  obtain ⟨e, r, he, _⟩ := waveGo_shape g snap l acc
  show x ∈ (waveGo g snap l acc).executed.map Prod.fst
  rw [he, List.map_append]
  exact List.mem_append_left _ h

theorem runWaves_executedIds_mono {reg : Registry V G} {g : Option G} {n : Nat}
    {s : ExecState V} {x : String}
    (h : x ∈ executedIds s) : x ∈ executedIds (runWaves reg g n s) := by
  induction n generalizing s with
  | zero => exact h
  | succ m ih =>
    obtain ⟨e, r, he, _⟩ := runWave_shape reg g s
    refine ih ?_
    show x ∈ (runWave reg g s).executed.map Prod.fst
    rw [he, List.map_append]
    exact List.mem_append_left _ h

theorem stepTask_executes {g : Option G} {snap : List (String × TaskResult V)}
    {t : TaskInfo V G} {acc : ExecState V} (hready : ready snap t = true) :
    t.id ∈ executedIds (stepTask g snap t acc) := by
  unfold stepTask
  split
  · rename_i hc
    exact string_contains_iff.mp hc
  · cases hexe : executeTask t (buildArgs snap t.producers) g <;>
      simp [hexe, executedIds, hready]

theorem waveGo_executes {g : Option G} {snap : List (String × TaskResult V)}
    {l : List (TaskInfo V G)} {acc : ExecState V} {t : TaskInfo V G}
    (htl : t ∈ l) (hready : ready snap t = true) :
    t.id ∈ executedIds (waveGo g snap l acc) := by
  induction l generalizing acc with
  | nil => cases htl
  | cons u rest ih =>
    rcases List.mem_cons.mp htl with heq | hmem
    · subst heq
      show t.id ∈ executedIds (waveGo g snap rest (stepTask g snap t acc))
      exact waveGo_executedIds_mono (stepTask_executes hready)
    · exact ih hmem

theorem wellFormedAux_parts {seen : List String} {t : TaskInfo V G}
    {rest : Registry V G} (h : wellFormedAux seen (t :: rest) = true) :
    seen.contains t.id = false ∧ (∀ p ∈ t.producers, p ∈ seen) ∧
      wellFormedAux (seen ++ [t.id]) rest = true := by
  simp only [wellFormedAux, Bool.and_eq_true, Bool.not_eq_eq_eq_not, Bool.not_true,
    List.all_eq_true] at h
  obtain ⟨⟨h1, h2⟩, h3⟩ := h
  exact ⟨h1, fun p hp => string_contains_iff.mp (h2 p hp), h3⟩

theorem wellFormedAux_producers_take {u : List String} {r : Registry V G}
    (h : wellFormedAux u r = true) :
    ∀ k, (hk : k < r.length) →
      ∀ p ∈ (r.get ⟨k, hk⟩).producers, p ∈ u ++ idsOf (r.take k) := by
  induction r generalizing u with
  | nil => intro k hk; cases hk
  | cons t rest ih =>
    obtain ⟨_, hprod, hrest⟩ := wellFormedAux_parts h
    intro k hk p hp
    cases k with
    | zero =>
      simp only [List.get] at hp
      simp only [List.take_zero, idsOf, List.map_nil, List.append_nil]
      exact hprod p hp
    | succ m =>
      have hm : m < rest.length := Nat.lt_of_succ_lt_succ hk
      have := ih hrest m hm p (by exact hp)
      simp only [idsOf, List.map_append, List.map_cons, List.map_nil] at this ⊢
      simp only [List.take_succ_cons, List.map_cons]
      rw [List.append_assoc] at this
      exact this

theorem idsOf_take_executed {reg : Registry V G} {g : Option G}
    (hwf : wellFormedB reg = true) (hp : Productive reg g) :
    ∀ k, ∀ p ∈ idsOf (reg.take k), p ∈ executedIds (runWaves reg g k initState) := by
  intro k
  induction k with
  | zero => simp [idsOf]
  | succ m ih =>
    intro p hpmem
    rw [runWaves_succ_comm]
    by_cases hm : m < reg.length
    · rw [List.take_succ, List.getElem?_eq_getElem hm] at hpmem
      simp only [idsOf, List.map_append, Option.toList_some, List.map_cons, List.map_nil,
        List.mem_append, List.mem_singleton] at hpmem
      rcases hpmem with hold | hnew
      · obtain ⟨e, r, he, _⟩ := runWave_shape reg g (runWaves reg g m initState)
        show p ∈ (runWave reg g (runWaves reg g m initState)).executed.map Prod.fst
        rw [he, List.map_append]
        exact List.mem_append_left _ (ih p hold)
      · set t : TaskInfo V G := reg.get ⟨m, hm⟩ with hteq
        have htmem : t ∈ reg := List.get_mem reg m hm
        have hprod : ∀ q ∈ t.producers, q ∈ idsOf (reg.take m) := by
          intro q hq
          have := wellFormedAux_producers_take (r := reg) (u := []) hwf m hm q hq
          simpa using this
        have hexecd : ∀ q ∈ t.producers, q ∈ executedIds (runWaves reg g m initState) :=
          fun q hq => ih q (hprod q hq)
        have hsync : resolvedIds (runWaves reg g m initState) =
            executedIds (runWaves reg g m initState) :=
          runWaves_sync hp rfl
        have hready : ready (runWaves reg g m initState).results t = true := by
          unfold ready
          rw [List.all_eq_true]
          intro q hq
          rw [lookup_isSome_iff]
          have : q ∈ resolvedIds (runWaves reg g m initState) := by
            rw [hsync]; exact hexecd q hq
          exact this
        have hpt : p = t.id := by
          rw [hnew, hteq, List.get_eq_getElem]
        rw [hpt]
        exact waveGo_executes htmem hready
    · have hle : reg.length ≤ m := Nat.le_of_not_lt hm
      rw [List.take_of_length_le (Nat.le_trans hle (Nat.le_succ m))] at hpmem
      rw [← List.take_of_length_le hle] at hpmem
      obtain ⟨e, r, he, _⟩ := runWave_shape reg g (runWaves reg g m initState)
      show p ∈ (runWave reg g (runWaves reg g m initState)).executed.map Prod.fst
      rw [he, List.map_append]
      exact List.mem_append_left _ (ih p hpmem)

theorem all_executed_final {reg : Registry V G} {g : Option G}
    (hwf : wellFormedB reg = true) (hp : Productive reg g) :
    ∀ t ∈ reg, t.id ∈ executedIds (finalState reg g) := by
  intro t ht
  have : t.id ∈ idsOf (reg.take reg.length) := by
    rw [List.take_length]
    exact List.mem_map_of_mem _ ht
  exact idsOf_take_executed hwf hp reg.length t.id this

theorem allResolved_final {reg : Registry V G} {g : Option G}
    (hwf : wellFormedB reg = true) (hp : Productive reg g) :
    allResolved reg (finalState reg g) = true := by
  unfold allResolved
  rw [List.all_eq_true]
  intro t ht
  rw [lookup_isSome_iff]
  have hsync : resolvedIds (finalState reg g) = executedIds (finalState reg g) :=
    runWaves_sync hp rfl
  show t.id ∈ resolvedIds (finalState reg g)
  rw [hsync]
  exact all_executed_final hwf hp t ht

end Liveness

section Temporal

theorem stepTask_new_executed {g : Option G} {snap : List (String × TaskResult V)}
    {t : TaskInfo V G} {acc : ExecState V} {x : String × Args V}
    (h : x ∈ (stepTask g snap t acc).executed) :
    x ∈ acc.executed ∨ (x = (t.id, buildArgs snap t.producers) ∧ ready snap t = true) := by
  unfold stepTask at h
  split at h
  · exact Or.inl h
  · split at h
    · rename_i hready
      rcases hexe : executeTask t (buildArgs snap t.producers) g with _ | tr <;>
          simp only [hexe] at h <;>
        rcases List.mem_append.mp h with hold | hnew
      · exact Or.inl hold
      · exact Or.inr ⟨List.mem_singleton.mp hnew, hready⟩
      · exact Or.inl hold
      · exact Or.inr ⟨List.mem_singleton.mp hnew, hready⟩
    · exact Or.inl h

theorem waveGo_new_executed {g : Option G} {snap : List (String × TaskResult V)}
    {l : List (TaskInfo V G)} {a : ExecState V} {x : String × Args V}
    (h : x ∈ (waveGo g snap l a).executed) :
    x ∈ a.executed ∨
      ∃ t ∈ l, x = (t.id, buildArgs snap t.producers) ∧ ready snap t = true := by
  induction l generalizing a with
  | nil => exact Or.inl h
  | cons t rest ih =>
    rcases ih (a := stepTask g snap t a) h with hin | ⟨u, hu, hx, hr⟩
    · rcases stepTask_new_executed hin with hold | ⟨hx, hr⟩
      · exact Or.inl hold
      · exact Or.inr ⟨t, List.mem_cons_self t rest, hx, hr⟩
    · exact Or.inr ⟨u, List.mem_cons_of_mem _ hu, hx, hr⟩

theorem runWave_new_executed {reg : Registry V G} {g : Option G} {s : ExecState V}
    {x : String × Args V} (h : x ∈ (runWave reg g s).executed) :
    x ∈ s.executed ∨
      ∃ t ∈ reg, x = (t.id, buildArgs s.results t.producers) ∧ ready s.results t = true :=
  waveGo_new_executed h

end Temporal

section Registration

theorem register_duplicate {r : Registry V G} {id : String}
    {fn : Args V → Option G → TaskFnOutcome V} {deps : Option (List String)}
    (h : tasksHas r id = true) :
    register r id fn deps = Except.error RegisterError.duplicateTaskId := by
  unfold register
  rw [if_pos h]

theorem register_unknownDep {r : Registry V G} {id : String}
    {fn : Args V → Option G → TaskFnOutcome V} {deps : Option (List String)}
    (h1 : tasksHas r id = false)
    (h2 : (deps.getD []).any (fun d => !tasksHas r d) = true) :
    register r id fn deps = Except.error RegisterError.unknownDependency := by
  unfold register
  rw [h1]
  simp only [Bool.false_eq_true, if_false]
  rw [if_pos h2]

theorem register_ok_eq {r : Registry V G} {id : String}
    {fn : Args V → Option G → TaskFnOutcome V} {deps : Option (List String)}
    (h1 : tasksHas r id = false)
    (h2 : (deps.getD []).all (fun d => tasksHas r d) = true) :
    register r id fn deps = Except.ok
      ((deps.getD []).foldl (fun acc dep => addConsumer acc dep id)
        (r ++ [⟨id, fn, deps.getD [], []⟩])) := by
  have hany : ((deps.getD []).any fun d => !tasksHas r d) = false := by
    rw [Bool.eq_false_iff]
    intro hcontra
    obtain ⟨d, hd, hdt⟩ := List.any_eq_true.mp hcontra
    rw [List.all_eq_true] at h2
    have := h2 d hd
    simp [this] at hdt
  unfold register
  rw [h1, hany]
  simp

theorem addAll_map_eta (L : Registry V G) :
    L.map (fun n => (⟨n.id, n.fn, n.producers, n.consumers⟩ : TaskInfo V G)) = L := by
  induction L with
  | nil => rfl
  | cons t rest ih => simp [ih]

theorem addAll_eq_map (ds : List String) (c : String) (L : Registry V G) :
    ds.foldl (fun acc d => addConsumer acc d c) L =
      L.map (fun n => ⟨n.id, n.fn, n.producers,
        n.consumers ++ (ds.filter (fun d => n.id == d)).map (fun _ => c)⟩) := by
  induction ds generalizing L with
  | nil =>
    simp only [List.foldl_nil, List.filter_nil, List.map_nil, List.append_nil]
    exact (addAll_map_eta L).symm
  | cons d rest ih =>
    rw [List.foldl_cons, ih (addConsumer L d c), addConsumer, List.map_map]
    congr 1
    funext n
    by_cases hnd : n.id = d
    · simp only [Function.comp, hnd, beq_self_eq_true, if_true, List.filter_cons,
        beq_self_eq_true]
      simp [List.append_assoc]
    · have hbeq : (n.id == d) = false := beq_false_of_ne hnd
      simp only [Function.comp, hbeq, Bool.false_eq_true, if_false, List.filter_cons, hbeq]

theorem wellFormedAux_addConsumer (seen : List String) (r : Registry V G)
    (d c : String) :
    wellFormedAux seen (addConsumer r d c) = wellFormedAux seen r := by
  induction r generalizing seen with
  | nil => rfl
  | cons t rest ih =>
    show wellFormedAux seen
        ((if t.id == d then
            (⟨t.id, t.fn, t.producers, t.consumers ++ [c]⟩ : TaskInfo V G) else t)
          :: addConsumer rest d c) = _
    by_cases hnd : t.id = d
    · simp only [hnd, beq_self_eq_true, if_true, wellFormedAux]
      rw [ih (seen ++ [d])]
    · rw [if_neg (by simp [hnd])]
      simp only [wellFormedAux]
      rw [ih (seen ++ [t.id])]

theorem wellFormedAux_addAll (seen : List String) (ds : List String) (c : String)
    (r : Registry V G) :
    wellFormedAux seen (ds.foldl (fun acc d => addConsumer acc d c) r) =
      wellFormedAux seen r := by
  induction ds generalizing r with
  | nil => rfl
  | cons d rest ih =>
    rw [List.foldl_cons, ih (addConsumer r d c), wellFormedAux_addConsumer]

theorem wellFormedAux_append_iff {u : List String} {r : Registry V G}
    {node : TaskInfo V G} :
    wellFormedAux u (r ++ [node]) = true ↔
      (wellFormedAux u r = true ∧ node.id ∉ u ++ idsOf r ∧
        ∀ p ∈ node.producers, p ∈ u ++ idsOf r) := by
  induction r generalizing u with
  | nil =>
    simp [wellFormedAux, idsOf, string_contains_iff, List.all_eq_true]
  | cons t rest ih =>
    have hmem1 : (u ++ [t.id]) ++ idsOf rest = u ++ idsOf (t :: rest) := by
      simp [idsOf]
    show ((!u.contains t.id) && (t.producers.all fun p => u.contains p) &&
        wellFormedAux (u ++ [t.id]) (rest ++ [node])) = true ↔ _
    rw [Bool.and_eq_true, ih (u := u ++ [t.id]), hmem1]
    constructor
    · rintro ⟨hhead, hwf, hnode, hprod⟩
      refine ⟨?_, hnode, hprod⟩
      show ((!u.contains t.id) && (t.producers.all fun p => u.contains p) &&
          wellFormedAux (u ++ [t.id]) rest) = true
      rw [Bool.and_eq_true]
      exact ⟨hhead, hwf⟩
    · rintro ⟨hwfall, hnode, hprod⟩
      have h2 : ((!u.contains t.id) && (t.producers.all fun p => u.contains p)) = true ∧
          wellFormedAux (u ++ [t.id]) rest = true := by
        rw [← Bool.and_eq_true]
        exact hwfall
      exact ⟨h2.1, h2.2, hnode, hprod⟩

theorem register_preserves_wf {r : Registry V G} {id : String}
    {fn : Args V → Option G → TaskFnOutcome V} {deps : Option (List String)}
    {r' : Registry V G} (hwf : wellFormedB r = true)
    (h : register r id fn deps = Except.ok r') : wellFormedB r' = true := by
  by_cases h1 : tasksHas r id = true
  · rw [register_duplicate h1] at h
    cases h
  · have h1f : tasksHas r id = false := by
      rw [Bool.eq_false_iff]
      exact h1
    by_cases h2 : ((deps.getD []).any fun d => !tasksHas r d) = true
    · rw [register_unknownDep h1f h2] at h
      cases h
    · have h2t : (deps.getD []).all (fun d => tasksHas r d) = true := by
        rw [List.all_eq_true]
        intro d hd
        rcases hb : tasksHas r d with _ | _
        · exact absurd (List.any_eq_true.mpr ⟨d, hd, by simp [hb]⟩) h2
        · rfl
      rw [register_ok_eq h1f h2t] at h
      cases h
      unfold wellFormedB
      rw [wellFormedAux_addAll]
      rw [show (wellFormedAux [] (r ++ [⟨id, fn, deps.getD [], []⟩]) = true) ↔ _ from
        wellFormedAux_append_iff]
      refine ⟨hwf, ?_, ?_⟩
      · intro hmem
        simp only [List.nil_append] at hmem
        exact (Bool.eq_false_iff.mp h1f) (tasksHas_iff.mpr hmem)
      · intro p hp
        simp only [List.nil_append]
        rw [List.all_eq_true] at h2t
        exact tasksHas_iff.mp (h2t p hp)

end Registration

section Acyclicity

/-- Rank of the first occurrence of a string in a list. -/
def rankOf : List String → String → Nat
  | [], _ => 0
  | x :: xs, a => if x = a then 0 else rankOf xs a + 1

theorem rankOf_lt_length {L : List String} {a : String} (h : a ∈ L) :
    rankOf L a < L.length := by
  induction L with
  | nil => cases h
  | cons x xs ih =>
    by_cases hx : x = a
    · simp [rankOf, hx]
    · rcases List.mem_cons.mp h with hh | hh
      · exact absurd hh.symm hx
      · simp only [rankOf, if_neg hx, List.length_cons]
        exact Nat.succ_lt_succ (ih hh)

theorem rankOf_append_left {L₁ L₂ : List String} {a : String} (h : a ∈ L₁) :
    rankOf (L₁ ++ L₂) a = rankOf L₁ a := by
  induction L₁ with
  | nil => cases h
  | cons x xs ih =>
    by_cases hx : x = a
    · simp [rankOf, hx]
    · rcases List.mem_cons.mp h with hh | hh
      · exact absurd hh.symm hx
      · simp only [List.cons_append, List.append_eq, rankOf, if_neg hx, ih hh]

theorem rankOf_append_right {L₁ L₂ : List String} {a : String} (h : a ∉ L₁) :
    rankOf (L₁ ++ L₂) a = L₁.length + rankOf L₂ a := by
  induction L₁ with
  | nil => simp
  | cons x xs ih =>
    have hx : x ≠ a := fun hc => h (by rw [hc]; exact List.mem_cons_self a xs)
    have hxs : a ∉ xs := fun hc => h (List.mem_cons_of_mem _ hc)
    simp only [List.cons_append, List.append_eq, rankOf, if_neg hx, ih hxs,
      List.length_cons]
    omega

theorem wf_rank {u : List String} {r : Registry V G}
    (h : wellFormedAux u r = true) :
    ∀ n ∈ r, ∀ p ∈ n.producers,
      rankOf (u ++ idsOf r) p < rankOf (u ++ idsOf r) n.id := by
  induction r generalizing u with
  | nil => intro n hn; cases hn
  | cons t rest ih =>
    obtain ⟨hfresh, hprod, hrest⟩ := wellFormedAux_parts h
    intro n hn p hp
    rcases List.mem_cons.mp hn with heq | hmem
    · subst heq
      have hpseen : p ∈ u := hprod p hp
      have hfresh' : n.id ∉ u := by
        intro hmem'
        rw [string_contains_iff.mpr hmem'] at hfresh
        cases hfresh
      rw [rankOf_append_left hpseen, rankOf_append_right hfresh']
      have h0 : rankOf (idsOf (n :: rest)) n.id = 0 := by
        simp [idsOf, rankOf]
      rw [h0]
      have := rankOf_lt_length hpseen
      omega
    · have hassoc : u ++ idsOf (t :: rest) = (u ++ [t.id]) ++ idsOf rest := by
        simp [idsOf]
      rw [hassoc]
      exact ih hrest n hmem p hp

/-- Dependency edge of the registry graph: `a` depends on `b` (some node
named `a` lists `b` among its producers). -/
def producerEdge (r : Registry V G) (a b : String) : Prop :=
  ∃ n ∈ r, n.id = a ∧ b ∈ n.producers

theorem producerEdge_rank {r : Registry V G} (h : wellFormedB r = true) {a b : String}
    (he : producerEdge r a b) : rankOf (idsOf r) b < rankOf (idsOf r) a := by
  obtain ⟨n, hn, hid, hb⟩ := he
  have := wf_rank (u := []) h n hn b hb
  simp only [List.nil_append] at this
  rw [hid] at this
  exact this

theorem wf_no_cycle {r : Registry V G} (h : wellFormedB r = true) (a : String) :
    ¬ Relation.TransGen (producerEdge r) a a := by
  intro hcycle
  have hlt : ∀ x y : String, Relation.TransGen (producerEdge r) x y →
      rankOf (idsOf r) y < rankOf (idsOf r) x := by
    intro x y hxy
    induction hxy with
    | single he => exact producerEdge_rank h he
    | tail hab he ih => exact Nat.lt_trans (producerEdge_rank h he) ih
  exact Nat.lt_irrefl _ (hlt a a hcycle)

end Acyclicity

section Emissions

theorem isEmpty_false_of_ne_nil {reg : Registry V G} (h : reg ≠ []) :
    reg.isEmpty = false := by
  cases reg with
  | nil => exact absurd rfl h
  | cons t rest => rfl

theorem resolveEmissions_nonempty {reg : Registry V G} {stored : Option G}
    {opts : Option (ResolveOptions G)} (hne : reg ≠ [])
    (hwf : wellFormedB reg = true)
    (hp : Productive reg (effectiveGlobalArgs stored opts)) :
    resolveEmissions reg stored opts =
      (if effWithLoadingState opts then
        [Emission.loading,
         Emission.result ⟨effectiveGlobalArgs stored opts,
           finalTasks reg (finalState reg (effectiveGlobalArgs stored opts))⟩]
       else
        [Emission.result ⟨effectiveGlobalArgs stored opts,
           finalTasks reg (finalState reg (effectiveGlobalArgs stored opts))⟩]) := by
  unfold resolveEmissions
  rw [isEmpty_false_of_ne_nil hne]
  simp only [Bool.false_eq_true, if_false]
  rw [if_pos (allResolved_final hwf hp)]

theorem finalTasks_complete {reg : Registry V G} {g : Option G}
    (hall : allResolved reg (finalState reg g) = true) :
    ∀ t ∈ reg, ∃ res, List.lookup t.id (finalState reg g).results = some res ∧
      (t.id, res) ∈ finalTasks reg (finalState reg g) := by
  intro t ht
  have hsome := List.all_eq_true.mp hall t ht
  obtain ⟨res, hres⟩ := Option.isSome_iff_exists.mp hsome
  exact ⟨res, hres, List.mem_filterMap.mpr ⟨t, ht, by simp [hres]⟩⟩

theorem countExec_le_one {reg : Registry V G} {g : Option G} {n : Nat} (id : String) :
    countExec (runWaves reg g n initState) id ≤ 1 :=
  List.nodup_iff_count_le_one.mp (runWaves_inv inv_init).ndE id

theorem countExec_final_eq_one {reg : Registry V G} {g : Option G}
    (hwf : wellFormedB reg = true) (hp : Productive reg g) :
    ∀ t ∈ reg, countExec (finalState reg g) t.id = 1 := by
  intro t ht
  exact List.count_eq_one_of_mem finalState_inv.ndE (all_executed_final hwf hp t ht)

theorem result_globalArgs {reg : Registry V G} {stored : Option G}
    {opts : Option (ResolveOptions G)} {r : ResolutionResult V G}
    (h : Emission.result r ∈ resolveEmissions reg stored opts) :
    r.globalArgs = effectiveGlobalArgs stored opts := by
  unfold resolveEmissions at h
  split at h
  · simp at h
    rw [h]
  · rcases hw : effWithLoadingState opts <;> rw [hw] at h
    · simp only [Bool.false_eq_true, if_false] at h
      split at h
      · simp at h
        rw [h]
      · cases h
    · simp only [if_true] at h
      rcases List.mem_cons.mp h with hl | hl
      · cases hl
      · split at hl
        · simp at hl
          rw [hl]
        · cases hl

theorem resolveEmissions_loading_split {reg : Registry V G} {stored : Option G}
    {ov : Option (Option G)} (hne : reg ≠ []) :
    resolveEmissions reg stored (some ⟨ov, some true⟩) =
      Emission.loading :: resolveEmissions reg stored (some ⟨ov, some false⟩) := by
  unfold resolveEmissions
  rw [isEmpty_false_of_ne_nil hne]
  rfl

theorem resolveEmissions_no_loading {reg : Registry V G} {stored : Option G}
    {opts : Option (ResolveOptions G)} (hw : effWithLoadingState opts = false) :
    ∀ e ∈ resolveEmissions reg stored opts, isLoading e = false := by
  intro e he
  unfold resolveEmissions at he
  split at he
  · simp at he
    rw [he]
    rfl
  · rw [hw] at he
    simp only [Bool.false_eq_true, if_false] at he
    split at he
    · simp at he
      rw [he]
      rfl
    · cases he

theorem resolveEmissions_empty (stored : Option G) (opts : Option (ResolveOptions G)) :
    resolveEmissions ([] : Registry V G) stored opts =
      [Emission.result ⟨effectiveGlobalArgs stored opts, []⟩] := rfl

end Emissions

section Concrete

/-- A task function returning the immediate value `n`. -/
def valueFn (n : Nat) : Args Nat → Option Nat → TaskFnOutcome Nat :=
  fun _ _ => TaskFnOutcome.returns (TaskReturn.value n)

/-- A task function throwing `n` synchronously. -/
def throwFn (n : Nat) : Args Nat → Option Nat → TaskFnOutcome Nat :=
  fun _ _ => TaskFnOutcome.throws n

/-- A task function returning an observable that completes without
emitting any value. -/
def emptyObsFn : Args Nat → Option Nat → TaskFnOutcome Nat :=
  fun _ _ => TaskFnOutcome.returns (TaskReturn.obs [])

/-- A task function summing the successful producer results. -/
def sumFn : Args Nat → Option Nat → TaskFnOutcome Nat :=
  fun args _ => TaskFnOutcome.returns (TaskReturn.value
    (args.foldl (fun acc q =>
      match q.2 with
      | TaskResult.data v => acc + v
      | TaskResult.error _ => acc) 0))

def taskA : TaskInfo Nat Nat := ⟨"A", valueFn 1, [], ["C"]⟩

def taskB : TaskInfo Nat Nat := ⟨"B", valueFn 2, [], ["C"]⟩

def taskC : TaskInfo Nat Nat := ⟨"C", sumFn, ["A", "B"], []⟩

/-- The diamond-free example graph A, B, C with C depending on A and B. -/
def regW3 : Registry Nat Nat := [taskA, taskB, taskC]

/-- A single-task registry. -/
def regW1 : Registry Nat Nat := [⟨"A", valueFn 1, [], []⟩]

/-- A registry whose single task throws `7`. -/
def regC1 : Registry Nat Nat := [⟨"A", throwFn 7, [], []⟩]

/-- A registry with a two-node dependency cycle, written down directly
(such a registry is not reachable through `register`, cf. claim C9). -/
def regCyc : Registry Nat Nat :=
  [⟨"A", valueFn 1, ["B"], ["B"]⟩, ⟨"B", valueFn 2, ["A"], ["A"]⟩]

/-- A registry whose root task returns an empty stream, starving its
dependent. -/
def regEmptyObs : Registry Nat Nat :=
  [⟨"A", emptyObsFn, [], ["B"]⟩, ⟨"B", valueFn 2, ["A"], []⟩]

/-- A registry with one throwing task and one independent succeeding task. -/
def regErr : Registry Nat Nat :=
  [⟨"A", throwFn 7, [], []⟩, ⟨"B", valueFn 2, [], []⟩]

/-- A resolver instance holding `regW3` and stored global arguments `5`. -/
def stW : ResolverState Nat Nat := ⟨regW3, some 5⟩

theorem productive_regW3 (g : Option Nat) : Productive regW3 g := by
  intro t ht args
  simp only [regW3, List.mem_cons, List.not_mem_nil, or_false] at ht
  rcases ht with h | h | h <;> subst h <;> rfl

theorem productive_regErr (g : Option Nat) : Productive regErr g := by
  intro t ht args
  simp only [regErr, List.mem_cons, List.not_mem_nil, or_false] at ht
  rcases ht with h | h <;> subst h <;> rfl

theorem regErr_ne_nil : regErr ≠ [] := by simp [regErr]

theorem regW3_ne_nil : regW3 ≠ [] := by simp [regW3]

end Concrete

/-- C1: the claim says the terminal resolution result carries a derived
failure flag that is present-and-true iff some task result is an error.
The terminal record built by `resolve` (resolver.ts 297-312) has exactly
the fields `globalArgs` and `tasks` (`ResolverResult` in
resolver.interface.ts) — there is no failure flag.  Evaluating the code at
a registry whose single task throws `7`: the stream emits the bare
two-field record even though the task result is an error, and the only
error signal is the separate free function `hasNoErrors` applied to the
mapping by the caller. -/
theorem claimC1 :
    resolveEmissions regC1 none none =
      [Emission.result ⟨none, [("A", TaskResult.error 7)]⟩] ∧
    hasNoErrors [("A", (TaskResult.error 7 : TaskResult Nat))] = false :=
  ⟨by decide, by decide⟩

/-- C2: the claim says a registered graph with a dependency cycle fails
deterministically with a structural error (e.g. `MaxIterationsReached`).
The wait-based implementation in resolver.ts has no such guard: on a
cyclic registry no task is ever ready, every wave leaves the state
untouched, and the stream neither emits nor errors — the caller waits
forever.  (Cyclic registries are unreachable through `register`, cf. C9,
but the resolution mechanism itself provides no structural failure.) -/
theorem claimC2 :
    (∀ n, runWaves regCyc none n initState = initState) ∧
    resolveEmissions regCyc none none = [] := by
  have hfix : runWave regCyc none initState = initState := by decide
  constructor
  · intro n
    induction n with
    | zero => rfl
    | succ m ih => rw [runWaves_succ_comm, ih, hfix]
  · decide

/-- C3: for every task with producers, the function is invoked only after
every declared producer has published its result: whenever an invocation
is on record, every producer has a published result and the argument
bundle is keyed exactly by the producer list, mapping each producer id to
that producer's published result (first conjunct); an invocation recorded
during a wave requires all producers to have published in the preceding
state already (second conjunct); and when every task's pipeline publishes
(success or error alike — errors are published values), every dependent
task is invoked (third conjunct). -/
theorem claimC3 {reg : Registry V G} {g : Option G}
    (hwf : wellFormedB reg = true) (hp : Productive reg g) :
    (∀ (n : Nat) (id : String) (args : Args V),
      (id, args) ∈ (runWaves reg g n initState).executed →
        ∃ t ∈ reg, t.id = id ∧ args.map Prod.fst = t.producers ∧
          ∀ p ∈ t.producers, ∃ res,
            List.lookup p (runWaves reg g n initState).results = some res ∧
            List.lookup p args = some res) ∧
    (∀ (n : Nat) (id : String) (args : Args V),
      (id, args) ∈ (runWaves reg g (n + 1) initState).executed →
        (id, args) ∈ (runWaves reg g n initState).executed ∨
          ∃ t ∈ reg, id = t.id ∧
            ready (runWaves reg g n initState).results t = true) ∧
    (∀ t ∈ reg, t.producers ≠ [] → t.id ∈ executedIds (finalState reg g)) := by
  refine ⟨?_, ?_, ?_⟩
  · intro n id args hmem
    exact (runWaves_inv inv_init).argsOK (id, args) hmem
  · intro n id args hmem
    rw [runWaves_succ_comm] at hmem
    rcases runWave_new_executed hmem with hold | ⟨t, ht, hx, hr⟩
    · exact Or.inl hold
    · rw [Prod.mk.injEq] at hx
      exact Or.inr ⟨t, ht, hx.1, hr⟩
  · intro t ht _
    exact all_executed_final hwf hp t ht

theorem claimC3_witness :
    wellFormedB regW3 = true ∧ Productive regW3 none ∧
      (∀ t ∈ regW3, t.producers ≠ [] → t.id ∈ executedIds (finalState regW3 none)) :=
  ⟨by decide, productive_regW3 none,
    (claimC3 (by decide) (productive_regW3 none)).2.2⟩

/-- C4 counterexample: the claim says every registered task's function is
invoked exactly once per resolution, never zero times.  With root task `A`
returning an empty stream (a legal `Observable` return), `A`'s pipeline
never publishes, so dependent `B` is never invoked: `A` runs once, `B`
zero times, the state is already a fixpoint, and the resolution emits
nothing. -/
theorem claimC4_counterexample :
    countExec (finalState regEmptyObs none) "A" = 1 ∧
    countExec (finalState regEmptyObs none) "B" = 0 ∧
    (∀ n, runWaves regEmptyObs none n (finalState regEmptyObs none) =
      finalState regEmptyObs none) ∧
    resolveEmissions regEmptyObs none none = [] := by
  have hfix : runWave regEmptyObs none (finalState regEmptyObs none) =
      finalState regEmptyObs none := by decide
  refine ⟨by decide, by decide, ?_, by decide⟩
  intro n
  induction n with
  | zero => rfl
  | succ m ih => rw [runWaves_succ_comm, ih, hfix]

/-- C4 (amended): every registered task's function is invoked at most once
per resolution, and — provided every task's pipeline publishes a result
(its function throws, returns a value, a settling promise, or a stream
with at least one emission) — exactly once, regardless of how many
consumers depend on it. -/
theorem claimC4 {reg : Registry V G} {g : Option G}
    (hwf : wellFormedB reg = true) :
    (∀ (n : Nat) (id : String), countExec (runWaves reg g n initState) id ≤ 1) ∧
    (Productive reg g → ∀ t ∈ reg, countExec (finalState reg g) t.id = 1) :=
  ⟨fun _ id => countExec_le_one id, fun hp => countExec_final_eq_one hwf hp⟩

theorem claimC4_witness :
    wellFormedB regW3 = true ∧ Productive regW3 none ∧
      countExec (finalState regW3 none) "C" = 1 :=
  ⟨by decide, productive_regW3 none,
    (claimC4 (by decide)).2 (productive_regW3 none) taskC (by simp [regW3])⟩

/-- C5: a task whose function throws synchronously, returns a rejecting
promise, or returns a stream whose first event is an error gets
`{ error: cause }`; a value or resolving promise gets `{ data: value }`;
for a multi-event stream only the first emitted value is taken (later
events are ignored).  When every task's pipeline publishes, the overall
stream still completes with a full `{ globalArgs, tasks }` payload (one
entry per registered task) rather than erroring, failures included — and
every published entry is exactly the normalized outcome of that task's
one invocation. -/
theorem claimC5 {reg : Registry V G} {stored : Option G}
    {opts : Option (ResolveOptions G)} (hne : reg ≠ [])
    (hwf : wellFormedB reg = true)
    (hp : Productive reg (effectiveGlobalArgs stored opts)) :
    (∀ (t : TaskInfo V G) (args : Args V) (g : Option G) (e : V),
      t.fn args g = TaskFnOutcome.throws e →
        executeTask t args g = some (TaskResult.error e)) ∧
    (∀ (t : TaskInfo V G) (args : Args V) (g : Option G) (e : V),
      t.fn args g = TaskFnOutcome.returns (TaskReturn.promiseReject e) →
        executeTask t args g = some (TaskResult.error e)) ∧
    (∀ (t : TaskInfo V G) (args : Args V) (g : Option G) (e : V)
        (evs : List (ObsEvent V)),
      t.fn args g = TaskFnOutcome.returns (TaskReturn.obs (ObsEvent.errorEv e :: evs)) →
        executeTask t args g = some (TaskResult.error e)) ∧
    (∀ (t : TaskInfo V G) (args : Args V) (g : Option G) (v : V),
      t.fn args g = TaskFnOutcome.returns (TaskReturn.value v) →
        executeTask t args g = some (TaskResult.data v)) ∧
    (∀ (t : TaskInfo V G) (args : Args V) (g : Option G) (v : V),
      t.fn args g = TaskFnOutcome.returns (TaskReturn.promiseResolve v) →
        executeTask t args g = some (TaskResult.data v)) ∧
    (∀ (t : TaskInfo V G) (args : Args V) (g : Option G) (v : V)
        (evs : List (ObsEvent V)),
      t.fn args g = TaskFnOutcome.returns (TaskReturn.obs (ObsEvent.next v :: evs)) →
        executeTask t args g = some (TaskResult.data v)) ∧
    resolveEmissions reg stored opts =
      (if effWithLoadingState opts then
        [Emission.loading,
         Emission.result ⟨effectiveGlobalArgs stored opts,
           finalTasks reg (finalState reg (effectiveGlobalArgs stored opts))⟩]
       else
        [Emission.result ⟨effectiveGlobalArgs stored opts,
           finalTasks reg (finalState reg (effectiveGlobalArgs stored opts))⟩]) ∧
    (∀ t ∈ reg, ∃ res,
      List.lookup t.id (finalState reg (effectiveGlobalArgs stored opts)).results =
        some res ∧
      (t.id, res) ∈ finalTasks reg (finalState reg (effectiveGlobalArgs stored opts))) ∧
    (∀ (id : String) (r : TaskResult V),
      (id, r) ∈ (finalState reg (effectiveGlobalArgs stored opts)).results →
        ∃ t ∈ reg, ∃ args, t.id = id ∧
          (id, args) ∈ (finalState reg (effectiveGlobalArgs stored opts)).executed ∧
          executeTask t args (effectiveGlobalArgs stored opts) = some r) := by
  refine ⟨?_, ?_, ?_, ?_, ?_, ?_, ?_, ?_, ?_⟩
  · intro t args g e h
    unfold executeTask
    rw [h]
  · intro t args g e h
    unfold executeTask
    rw [h]
  · intro t args g e evs h
    unfold executeTask
    rw [h]
    rfl
  · intro t args g v h
    unfold executeTask
    rw [h]
  · intro t args g v h
    unfold executeTask
    rw [h]
  · intro t args g v evs h
    unfold executeTask
    rw [h]
    rfl
  · exact resolveEmissions_nonempty hne hwf hp
  · exact finalTasks_complete (allResolved_final hwf hp)
  · intro id r hmem
    exact finalState_inv.resOK (id, r) hmem

theorem claimC5_witness :
    regErr ≠ [] ∧ wellFormedB regErr = true ∧ Productive regErr none ∧
    resolveEmissions regErr none none =
      [Emission.result ⟨none, finalTasks regErr (finalState regErr none)⟩] ∧
    finalTasks regErr (finalState regErr none) =
      [("A", TaskResult.error 7), ("B", TaskResult.data 2)] :=
  ⟨regErr_ne_nil, by decide, productive_regErr none,
    ((claimC5 regErr_ne_nil (by decide)
        (productive_regErr (effectiveGlobalArgs none none))).2.2.2.2.2.2.1).trans
      (by decide),
    by decide⟩

/-- C6 counterexample: the claim says every `resolve` call with
`withLoadingState: true` emits exactly one loading marker strictly before
the terminal result.  On an empty registry the short-circuit at
resolver.ts 257-259 returns before the loading wrapping at line 314, so
the stream emits only the terminal result and no loading marker at all. -/
theorem claimC6_counterexample :
    resolveEmissions ([] : Registry Nat Nat) (some 5) (some ⟨none, some true⟩) =
      [Emission.result ⟨some 5, []⟩] := by decide

/-- C6 (amended): on a resolver with at least one registered task,
`withLoadingState: true` emits exactly one loading marker strictly before
everything else (the remaining emissions are exactly those of the same
call with `withLoadingState: false`, and none of them is a loading
marker); with `false` or with the options omitted only result emissions
occur, and when every task publishes the stream is exactly the single
terminal result; on an empty registry only the terminal result is
emitted, whatever the options. -/
theorem claimC6 {reg : Registry V G} {stored : Option G} {ov : Option (Option G)}
    (hne : reg ≠ []) (hwf : wellFormedB reg = true)
    (hp : Productive reg (effectiveGlobalArgs stored (some ⟨ov, some false⟩))) :
    resolveEmissions reg stored (some ⟨ov, some true⟩) =
      Emission.loading :: resolveEmissions reg stored (some ⟨ov, some false⟩) ∧
    (∀ e ∈ resolveEmissions reg stored (some ⟨ov, some false⟩),
      isLoading e = false) ∧
    (∀ e ∈ resolveEmissions reg stored none, isLoading e = false) ∧
    resolveEmissions reg stored (some ⟨ov, some false⟩) =
      [Emission.result ⟨effectiveGlobalArgs stored (some ⟨ov, some false⟩),
        finalTasks reg
          (finalState reg (effectiveGlobalArgs stored (some ⟨ov, some false⟩)))⟩] ∧
    (∀ o : Option (ResolveOptions G),
      resolveEmissions ([] : Registry V G) stored o =
        [Emission.result ⟨effectiveGlobalArgs stored o, []⟩]) := by
  refine ⟨resolveEmissions_loading_split hne, resolveEmissions_no_loading rfl,
    resolveEmissions_no_loading rfl, ?_, fun o => resolveEmissions_empty stored o⟩
  rw [resolveEmissions_nonempty hne hwf hp]
  rfl

theorem claimC6_witness :
    regW3 ≠ [] ∧ wellFormedB regW3 = true ∧
    Productive regW3 (effectiveGlobalArgs none (some ⟨none, some false⟩)) ∧
    resolveEmissions regW3 none (some ⟨none, some true⟩) =
      Emission.loading :: resolveEmissions regW3 none (some ⟨none, some false⟩) :=
  ⟨regW3_ne_nil, by decide, productive_regW3 _,
    (claimC6 regW3_ne_nil (by decide) (productive_regW3 _)).1⟩

/-- C7: the global-argument value in effect for a `resolve` call is the
per-call override whenever the options object provides the key — including
an explicit override of `undefined` — and otherwise the instance's stored
value; every emitted terminal record reports exactly that effective value;
a call on an unchanged instance state without an override reports the
stored value (the override never mutates the instance); and
`setGlobalArgs` replaces only the stored global arguments, leaving the
registry untouched. -/
theorem claimC7 :
    (∀ (stored v : Option G) (w : Option Bool),
      effectiveGlobalArgs stored (some ⟨some v, w⟩) = v) ∧
    (∀ (stored : Option G) (w : Option Bool),
      effectiveGlobalArgs stored (some ⟨none, w⟩) = stored) ∧
    (∀ stored : Option G, effectiveGlobalArgs stored none = stored) ∧
    (∀ (reg : Registry V G) (stored : Option G) (opts : Option (ResolveOptions G))
        (r : ResolutionResult V G),
      Emission.result r ∈ resolveEmissions reg stored opts →
        r.globalArgs = effectiveGlobalArgs stored opts) ∧
    (∀ (st : ResolverState V G) (r : ResolutionResult V G),
      Emission.result r ∈ ((resolve none).subscribe st).1 →
        r.globalArgs = st.globalArgs) ∧
    (∀ (st : ResolverState V G) (v : G),
      (setGlobalArgs st v).tasks = st.tasks ∧
        (setGlobalArgs st v).globalArgs = some v) := by
  refine ⟨fun stored v w => rfl, fun stored w => rfl, fun stored => rfl, ?_, ?_, ?_⟩
  · intro reg stored opts r h
    exact result_globalArgs h
  · intro st r h
    exact (result_globalArgs h).trans rfl
  · intro st v
    exact ⟨rfl, rfl⟩

theorem claimC7_witness :
    effectiveGlobalArgs (some 3) (some ⟨some none, none⟩) = (none : Option Nat) ∧
    effectiveGlobalArgs (some 3) (some ⟨some (some 9), none⟩) = some 9 ∧
    effectiveGlobalArgs (some 3) (none : Option (ResolveOptions Nat)) = some 3 ∧
    (ResolutionResult.globalArgs
      (⟨some 9, finalTasks regW3 (finalState regW3 (some 9))⟩ :
        ResolutionResult Nat Nat)) = some 9 :=
  ⟨(claimC7 (V := Nat)).1 (some 3) none none,
   (claimC7 (V := Nat)).1 (some 3) (some 9) none,
   (claimC7 (V := Nat)).2.2.1 (some 3),
   (claimC7 (V := Nat)).2.2.2.1 regW3 (some 3) (some ⟨some (some 9), none⟩)
     ⟨some 9, finalTasks regW3 (finalState regW3 (some 9))⟩ (by decide)⟩

/-- C8: `register` fails synchronously with the duplicate-id error when
the task id already exists, and with the unknown-dependency error when
some listed dependency is missing; after any failure the registry value is
unchanged, so any distinct well-formed registration on it still succeeds;
and on success the node is inserted at the end with
`producers = dependencies ?? []` and empty `consumers`, while each
producer's `consumers` gets the new id appended (once per occurrence in
the dependency list) and nothing else changes. -/
theorem claimC8 {r : Registry V G} {id : String}
    {fn : Args V → Option G → TaskFnOutcome V} {deps : Option (List String)} :
    (tasksHas r id = true →
      register r id fn deps = Except.error RegisterError.duplicateTaskId) ∧
    (tasksHas r id = false →
      ((deps.getD []).any fun d => !tasksHas r d) = true →
        register r id fn deps = Except.error RegisterError.unknownDependency) ∧
    ((∃ e, register r id fn deps = Except.error e) →
      ∀ (id2 : String) (fn2 : Args V → Option G → TaskFnOutcome V)
        (deps2 : Option (List String)),
        tasksHas r id2 = false →
        ((deps2.getD []).all fun d => tasksHas r d) = true →
        ∃ r2, register r id2 fn2 deps2 = Except.ok r2) ∧
    (tasksHas r id = false →
      ((deps.getD []).all fun d => tasksHas r d) = true →
      register r id fn deps = Except.ok
        ((r.map fun n => ⟨n.id, n.fn, n.producers,
            n.consumers ++
              (((deps.getD []).filter fun d => n.id == d).map fun _ => id)⟩) ++
          [⟨id, fn, deps.getD [], []⟩])) := by
  refine ⟨fun h => register_duplicate h, fun h1 h2 => register_unknownDep h1 h2, ?_, ?_⟩
  · intro _ id2 fn2 deps2 h1 h2
    exact ⟨_, register_ok_eq h1 h2⟩
  · intro h1 h2
    rw [register_ok_eq h1 h2, addAll_eq_map, List.map_append]
    have hfil : ((deps.getD []).filter fun d =>
        (⟨id, fn, deps.getD [], []⟩ : TaskInfo V G).id == d) = [] := by
      rw [List.filter_eq_nil_iff]
      intro d hd hbeq
      rw [beq_iff_eq] at hbeq
      have hhd := List.all_eq_true.mp h2 d hd
      rw [← hbeq] at hhd
      rw [hhd] at h1
      cases h1
    simp [hfil]

theorem claimC8_witness :
    tasksHas regW1 "A" = true ∧
    register regW1 "A" (valueFn 9) none =
      Except.error RegisterError.duplicateTaskId ∧
    register regW1 "B" (valueFn 9) (some ["A"]) =
      Except.ok
        ((regW1.map fun n => ⟨n.id, n.fn, n.producers,
            n.consumers ++ ((["A"].filter fun d => n.id == d).map fun _ => "B")⟩) ++
          [⟨"B", valueFn 9, ["A"], []⟩]) :=
  ⟨by decide, (claimC8).1 (by decide), (claimC8).2.2.2 (by decide) (by decide)⟩

/-- C9 counterexample: the claim says registering a task that lists its
own id as a dependency always fails with the unknown-dependency error.
When the id already exists in the registry the duplicate-id check fires
first (resolver.ts 170-171, before the dependency check at 174-176):
registering id `A` with dependency `A` on a registry that already has `A`
fails with the duplicate-id error, not the unknown-dependency error. -/
theorem claimC9_counterexample :
    register regW1 "A" (valueFn 9) (some ["A"]) =
      Except.error RegisterError.duplicateTaskId ∧
    RegisterError.duplicateTaskId ≠ RegisterError.unknownDependency :=
  ⟨rfl, by decide⟩

/-- C9 (amended): the empty registry satisfies the registration invariant
and `register` preserves it, so in every reachable registry each producer
reference points to a strictly earlier node (its rank among the ids is
strictly smaller); consequently the producer/consumer graph never has a
cycle (no id reaches itself through producer edges); and a registration
that lists its own id as a dependency always fails — with the
unknown-dependency error when the id is not yet registered, and with the
duplicate-id error (checked first) when the id already exists — so a
cyclic registry stays unreachable through the public interface. -/
theorem claimC9 {r : Registry V G} {id : String}
    {fn : Args V → Option G → TaskFnOutcome V} {deps : Option (List String)} :
    wellFormedB ([] : Registry V G) = true ∧
    (∀ r2, wellFormedB r = true → register r id fn deps = Except.ok r2 →
      wellFormedB r2 = true) ∧
    (wellFormedB r = true → ∀ n ∈ r, ∀ p ∈ n.producers,
      rankOf (idsOf r) p < rankOf (idsOf r) n.id) ∧
    (wellFormedB r = true → ∀ a : String,
      ¬ Relation.TransGen (producerEdge r) a a) ∧
    (tasksHas r id = false → id ∈ deps.getD [] →
      register r id fn deps = Except.error RegisterError.unknownDependency) ∧
    (tasksHas r id = true →
      register r id fn deps = Except.error RegisterError.duplicateTaskId) := by
  refine ⟨rfl, fun r2 hwf h => register_preserves_wf hwf h, ?_,
    fun h a => wf_no_cycle h a, ?_, fun hhas => register_duplicate hhas⟩
  · intro h n hn p hp
    have := wf_rank (u := []) h n hn p hp
    simpa using this
  · intro hhas hmem
    exact register_unknownDep hhas (List.any_eq_true.mpr ⟨id, hmem, by simp [hhas]⟩)

theorem claimC9_witness :
    wellFormedB regW3 = true ∧
    tasksHas regW1 "C" = false ∧
    ("C" ∈ (some ["C"] : Option (List String)).getD []) ∧
    register regW1 "C" (valueFn 3) (some ["C"]) =
      Except.error RegisterError.unknownDependency ∧
    tasksHas regW1 "A" = true ∧
    register regW1 "A" (valueFn 3) (some ["A"]) =
      Except.error RegisterError.duplicateTaskId :=
  ⟨by decide, by decide, by decide,
    (claimC9 (r := regW1)).2.2.2.2.1 (by decide) (by decide),
    by decide,
    (claimC9 (r := regW1)).2.2.2.2.2 (by decide)⟩

/-- C10: the value returned by `resolve` is a deferred factory (`defer`),
so no task function runs until a subscription applies it to the instance
state; each subscription runs the whole resolution against the state at
subscription time: under the registration invariant, with every task
publishing, one subscription invokes every registered task's function
exactly once, so two subscriptions invoke it twice in total; and a
subscription made after `setGlobalArgs` captures the fresh stored value in
its result. -/
theorem claimC10 {st : ResolverState V G} {opts : Option (ResolveOptions G)}
    (hwf : wellFormedB st.tasks = true)
    (hp : Productive st.tasks (effectiveGlobalArgs st.globalArgs opts)) :
    (∀ t ∈ st.tasks,
      (((resolve opts).subscribe st).2.map Prod.fst).count t.id = 1) ∧
    (∀ t ∈ st.tasks,
      ((((resolve opts).subscribe st).2 ++
        ((resolve opts).subscribe st).2).map Prod.fst).count t.id = 2) ∧
    (∀ (v : G) (r : ResolutionResult V G),
      Emission.result r ∈ ((resolve none).subscribe (setGlobalArgs st v)).1 →
        r.globalArgs = some v) := by
  refine ⟨?_, ?_, ?_⟩
  · intro t ht
    exact countExec_final_eq_one hwf hp t ht
  · intro t ht
    have h1 : ((finalState st.tasks
        (effectiveGlobalArgs st.globalArgs opts)).executed.map Prod.fst).count t.id = 1 :=
      countExec_final_eq_one hwf hp t ht
    show ((((finalState st.tasks (effectiveGlobalArgs st.globalArgs opts)).executed ++
        (finalState st.tasks (effectiveGlobalArgs st.globalArgs opts)).executed).map
          Prod.fst)).count t.id = 2
    rw [List.map_append, List.count_append, h1]
  · intro v r h
    exact (result_globalArgs h).trans rfl

theorem claimC10_witness :
    wellFormedB stW.tasks = true ∧
    Productive stW.tasks (effectiveGlobalArgs stW.globalArgs none) ∧
    ((((resolve none).subscribe stW).2 ++
      ((resolve none).subscribe stW).2).map Prod.fst).count "C" = 2 :=
  ⟨by decide, productive_regW3 _,
    (claimC10 (by decide)
      (productive_regW3 (effectiveGlobalArgs stW.globalArgs none))).2.1
      taskC (by simp [stW, regW3])⟩

end TaskRes
